import Mathlib

/-!
Verification development for the `noam` batch pipeline (`src/noam.py`).

The file shallowly embeds the pure/algorithmic core of the pipeline:
sub-batch splitting (`api_upload_files`), collage grouping
(`create_collages_from_paths`), the 36-image chunked upload driver inside
`processor_thread`, client grouping (`group_keys_by_client`,
`find_client_segment`, `split_client`), image-dimension arithmetic
(`preprocess_to_jpeg_bytes`, `create_collage`), the geocoding fallback
(`get_coordinates`, `rt_ensure_client`), and the per-client polling state
(`seen_keys` / `normalized_count` / `buffer_paths`).  Machine loops are
embedded as fuel-based structural recursions (fuel bounded by list length),
so every definition is executable by the kernel.
-/

namespace Noam

variable {α : Type _} {β : Type _}

/-- Fuel-based chunker: `chunkEveryAux c fuel l` splits `l` into consecutive
slices of `c` items, mirroring Python loops of the form
`for start in range(0, len(l), c): batch = l[start:start+c]`.
`fuel = l.length` always suffices (each step consumes at least one item). -/
def chunkEveryAux (c : ℕ) : ℕ → List α → List (List α)
  | _, [] => []
  | 0, _ :: _ => []
  | fuel + 1, a :: l => (a :: l.take (c - 1)) :: chunkEveryAux c fuel (l.drop (c - 1))

/-- Split a list into consecutive slices of `c` items (last slice may be short). -/
def chunkEvery (c : ℕ) (l : List α) : List (List α) :=
  chunkEveryAux c l.length l

/-- `api_upload_files` (src/noam.py, lines 63-86): the deposit sender splits
`filepaths` into sub-batches of at most 12 items
(`for start in range(0, total, 12): batch = filepaths[start:start+12]`) and
issues one upload call per sub-batch; for the empty list it returns at once.
We model the function by the list of sub-batches it submits, in order. -/
def api_upload_files (filepaths : List α) : List (List α) :=
  chunkEvery 12 filepaths

/-- `create_collages_from_paths` (src/noam.py, lines 138-150): groups the
image paths by 3 (`for i in range(0, len(img_paths), 3): group = img_paths[i:i+3]`)
and builds one collage per group.  We model the function by the list of
per-collage input groups, in order (the later rename of the first output file
does not change the groups). -/
def create_collages_from_paths (img_paths : List String) : List (List String) :=
  chunkEvery 3 img_paths

theorem chunkEveryAux_flatten (c : ℕ) :
    ∀ (fuel : ℕ) (l : List α), l.length ≤ fuel → (chunkEveryAux c fuel l).flatten = l := by
  intro fuel
  induction fuel with
  | zero =>
    intro l hl
    cases l with
    | nil => rfl
    | cons a l => simp at hl
  | succ f ih =>
    intro l hl
    cases l with
    | nil => rfl
    | cons a l =>
      simp only [chunkEveryAux, List.flatten_cons]
      have hdrop : (l.drop (c - 1)).length ≤ f := by
        simp only [List.length_drop]
        simp only [List.length_cons] at hl
        omega
      rw [ih _ hdrop]
      simp [List.take_append_drop]

theorem chunkEvery_flatten (c : ℕ) (l : List α) : (chunkEvery c l).flatten = l :=
  chunkEveryAux_flatten c l.length l le_rfl

theorem chunkEveryAux_length (c : ℕ) (hc : 1 ≤ c) :
    ∀ (fuel : ℕ) (l : List α), l.length ≤ fuel →
      (chunkEveryAux c fuel l).length = (l.length + c - 1) / c := by
  intro fuel
  induction fuel with
  | zero =>
    intro l hl
    cases l with
    | nil =>
      simp only [chunkEveryAux, List.length_nil]
      rw [Nat.div_eq_of_lt (by omega)]
    | cons a l => simp at hl
  | succ f ih =>
    intro l hl
    cases l with
    | nil =>
      simp only [chunkEveryAux, List.length_nil]
      rw [Nat.div_eq_of_lt (by omega)]
    | cons a l =>
      simp only [chunkEveryAux, List.length_cons]
      have hdrop : (l.drop (c - 1)).length ≤ f := by
        simp only [List.length_drop]
        simp only [List.length_cons] at hl
        omega
      rw [ih _ hdrop]
      simp only [List.length_drop]
      have hrw : l.length + 1 + c - 1 = l.length + c := by omega
      rw [hrw, Nat.add_div_right _ (by omega : 0 < c)]
      rcases Nat.le_total l.length (c - 1) with hle | hge
      · have h1 : l.length - (c - 1) + c - 1 = c - 1 := by omega
        rw [h1, Nat.div_eq_of_lt (by omega : c - 1 < c),
          Nat.div_eq_of_lt (by omega : l.length < c)]
      · have h1 : l.length - (c - 1) + c - 1 = l.length := by omega
        rw [h1]

theorem chunkEvery_length (c : ℕ) (hc : 1 ≤ c) (l : List α) :
    (chunkEvery c l).length = (l.length + c - 1) / c :=
  chunkEveryAux_length c hc l.length l le_rfl

theorem chunkEveryAux_mem_length (c : ℕ) (hc : 1 ≤ c) :
    ∀ (fuel : ℕ) (l : List α) (b : List α), b ∈ chunkEveryAux c fuel l → b.length ≤ c := by
  intro fuel
  induction fuel with
  | zero =>
    intro l b hb
    cases l with
    | nil => simp [chunkEveryAux] at hb
    | cons a l => simp [chunkEveryAux] at hb
  | succ f ih =>
    intro l b hb
    cases l with
    | nil => simp [chunkEveryAux] at hb
    | cons a l =>
      simp only [chunkEveryAux, List.mem_cons] at hb
      rcases hb with hb | hb
      · subst hb
        simp only [List.length_cons, List.length_take]
        omega
      · exact ih _ _ hb

theorem chunkEvery_mem_length (c : ℕ) (hc : 1 ≤ c) (l : List α) (b : List α)
    (hb : b ∈ chunkEvery c l) : b.length ≤ c :=
  chunkEveryAux_mem_length c hc l.length l b hb

theorem chunkEveryAux_getLast? (c : ℕ) (hc : 1 ≤ c) :
    ∀ (fuel : ℕ) (l : List α), l.length ≤ fuel → l ≠ [] →
      ∃ b, (chunkEveryAux c fuel l).getLast? = some b ∧
        b.length = if l.length % c = 0 then c else l.length % c := by
  intro fuel
  induction fuel with
  | zero =>
    intro l hl hne
    cases l with
    | nil => exact absurd rfl hne
    | cons a l => simp at hl
  | succ f ih =>
    intro l hl hne
    cases l with
    | nil => exact absurd rfl hne
    | cons a l =>
      simp only [List.length_cons] at hl
      rcases Nat.lt_or_ge l.length c with hlt | hge
      · -- the whole list fits in a single (final) chunk
        have hdrop : l.drop (c - 1) = [] := by
          apply List.drop_eq_nil_of_le
          omega
        refine ⟨a :: l.take (c - 1), ?_, ?_⟩
        · simp [chunkEveryAux, hdrop]
        · have htk : l.take (c - 1) = l := List.take_of_length_le (by omega)
          rw [htk]
          simp only [List.length_cons]
          rcases Nat.lt_or_ge (l.length + 1) c with h2 | h2
          · rw [if_neg]
            · exact (Nat.mod_eq_of_lt h2).symm
            · rw [Nat.mod_eq_of_lt h2]; omega
          · have hceq : l.length + 1 = c := by omega
            rw [hceq]
            simp [Nat.mod_self]
      · -- at least one full chunk, recurse on the tail of the chunking
        have hdl : (l.drop (c - 1)).length ≤ f := by
          simp only [List.length_drop]; omega
        have hdne : l.drop (c - 1) ≠ [] := by
          intro h
          have := congrArg List.length h
          simp only [List.length_drop, List.length_nil] at this
          omega
        obtain ⟨b, hb1, hb2⟩ := ih (l.drop (c - 1)) hdl hdne
        refine ⟨b, ?_, ?_⟩
        · have hne2 : chunkEveryAux c f (l.drop (c - 1)) ≠ [] := by
            intro h
            rw [h] at hb1
            simp at hb1
          simp only [chunkEveryAux]
          rw [List.getLast?_cons, hb1.symm]
          rw [List.getLast?_eq_head?_reverse] at hb1 ⊢
          cases hrev : (chunkEveryAux c f (l.drop (c - 1))).reverse with
          | nil =>
            exact absurd (by simpa using congrArg List.reverse hrev) hne2
          | cons x xs => simp [hrev]
        · rw [hb2]
          simp only [List.length_drop, List.length_cons]
          have heq : (l.length - (c - 1)) % c = (l.length + 1) % c := by
            have h2 : l.length + 1 = (l.length - (c - 1)) + c := by omega
            rw [h2, Nat.add_mod_right]
          rw [heq]

theorem chunkEvery_getLast? (c : ℕ) (hc : 1 ≤ c) (l : List α) (hne : l ≠ []) :
    ∃ b, (chunkEvery c l).getLast? = some b ∧
      b.length = if l.length % c = 0 then c else l.length % c :=
  chunkEveryAux_getLast? c hc l.length l le_rfl hne

/-- The `while True` block loop of `processor_thread` (src/noam.py, lines
320-347): while the buffer holds at least 36 items, remove the first 36 as one
block (`block = buf[:36]; del buf[:36]`).  Fuel-based embedding of the loop
(`fuel = l.length` always suffices since every iteration removes 36 items);
returns the emitted blocks in order and the remaining buffer. -/
def chunk36Aux : ℕ → List α → List (List α) × List α
  | 0, l => ([], l)
  | fuel + 1, l =>
    if l.length < 36 then ([], l)
    else
      let p := chunk36Aux fuel (l.drop 36)
      (l.take 36 :: p.1, p.2)

/-- Blocks-of-36 loop applied to a buffer. -/
def chunk36 (l : List α) : List (List α) × List α :=
  chunk36Aux l.length l

/-- One polling-cycle update of a group's chunk-driver state: append the newly
normalized images to the buffer, then flush full blocks of 36
(src/noam.py, lines 311-347).  The state is (buffer, blocks emitted so far). -/
def feedBuffer (st : List α × List (List α)) (newImgs : List α) : List α × List (List α) :=
  let p := chunk36 (st.1 ++ newImgs)
  (p.2, st.2 ++ p.1)

/-- The chunk driver run over a whole sequence of polling cycles, starting
from an empty buffer. -/
def runDriver (cycles : List (List α)) : List α × List (List α) :=
  cycles.foldl feedBuffer ([], [])

/-- The drain step of `processor_thread` (src/noam.py, lines 354-385): on
inactivity, the remaining buffer is submitted as one final chunk, except that
an empty buffer is skipped (`if not buf: continue`). -/
def drainFinal (buf : List α) : Option (List α) :=
  if buf.isEmpty then none else some buf

theorem chunk36Aux_spec :
    ∀ (fuel : ℕ) (l : List α), l.length ≤ fuel →
      (chunk36Aux fuel l).1.flatten ++ (chunk36Aux fuel l).2 = l ∧
      (chunk36Aux fuel l).2.length < 36 ∧
      (∀ b ∈ (chunk36Aux fuel l).1, b.length = 36) := by
  intro fuel
  induction fuel with
  | zero =>
    intro l hl
    have : l = [] := List.length_eq_zero.mp (by omega)
    subst this
    simp [chunk36Aux]
  | succ f ih =>
    intro l hl
    by_cases hlt : l.length < 36
    · simp [chunk36Aux, hlt]
    · have hdl : (l.drop 36).length ≤ f := by
        simp only [List.length_drop]; omega
      obtain ⟨h1, h2, h3⟩ := ih (l.drop 36) hdl
      simp only [chunk36Aux, if_neg hlt]
      refine ⟨?_, h2, ?_⟩
      · simp only [List.flatten_cons, List.append_assoc, h1]
        exact List.take_append_drop 36 l
      · intro b hb
        simp only [List.mem_cons] at hb
        rcases hb with hb | hb
        · subst hb
          simp only [List.length_take]
          omega
        · exact h3 b hb

theorem chunk36_spec (l : List α) :
    (chunk36 l).1.flatten ++ (chunk36 l).2 = l ∧
    (chunk36 l).2.length < 36 ∧
    (∀ b ∈ (chunk36 l).1, b.length = 36) :=
  chunk36Aux_spec l.length l le_rfl

theorem flatten_length_const (n : ℕ) :
    ∀ (L : List (List α)), (∀ b ∈ L, b.length = n) → L.flatten.length = n * L.length := by
  intro L
  induction L with
  | nil => simp
  | cons b bs ih =>
    intro h
    simp only [List.flatten_cons, List.length_append, List.length_cons, Nat.mul_succ]
    have hib := ih (fun x hx => h x (List.mem_cons_of_mem _ hx))
    have hb := h b (List.mem_cons_self b bs)
    omega

/-- Invariant carried by the chunk driver across polling cycles. -/
def DriverInv (imgs : List α) (st : List α × List (List α)) : Prop :=
  st.2.flatten ++ st.1 = imgs ∧ st.1.length < 36 ∧ ∀ b ∈ st.2, b.length = 36

theorem feedBuffer_inv (imgs newImgs : List α) (st : List α × List (List α))
    (h : DriverInv imgs st) : DriverInv (imgs ++ newImgs) (feedBuffer st newImgs) := by
  obtain ⟨h1, _h2, h3⟩ := h
  obtain ⟨g1, g2, g3⟩ := chunk36_spec (st.1 ++ newImgs)
  refine ⟨?_, g2, ?_⟩
  · simp only [feedBuffer, List.flatten_append, List.append_assoc, g1]
    rw [← List.append_assoc, h1]
  · intro b hb
    simp only [feedBuffer, List.mem_append] at hb
    rcases hb with hb | hb
    · exact h3 b hb
    · exact g3 b hb

theorem runDriver_inv (cycles : List (List α)) :
    DriverInv cycles.flatten (runDriver cycles) := by
  suffices h : ∀ (cycles : List (List α)) (imgs : List α) (st : List α × List (List α)),
      DriverInv imgs st → DriverInv (imgs ++ cycles.flatten) (cycles.foldl feedBuffer st) by
    have h0 : DriverInv [] (([], []) : List α × List (List α)) := by
      refine ⟨rfl, by simp, by simp⟩
    simpa using h cycles [] ([], []) h0
  intro cs
  induction cs with
  | nil =>
    intro imgs st h
    simpa using h
  | cons c cs ih =>
    intro imgs st h
    have := ih (imgs ++ c) (feedBuffer st c) (feedBuffer_inv imgs c st h)
    simpa [List.append_assoc] using this

/-- C1: for every client group whose buffer receives N normalized images in
total (as the concatenation of per-cycle additions) with chunk size 36, the
chunked driver emits exactly floor(N/36) full chunks of exactly 36 images
each during polling, removed FIFO from the front of the buffer, and at drain
time emits exactly one final chunk of size N mod 36, except that when
N mod 36 = 0 no final submission is made. -/
theorem C1_chunking_exactness (cycles : List (List α)) :
    ((runDriver cycles).2.length = cycles.flatten.length / 36) ∧
    (∀ b ∈ (runDriver cycles).2, b.length = 36) ∧
    ((runDriver cycles).2.flatten ++ (runDriver cycles).1 = cycles.flatten) ∧
    ((runDriver cycles).1.length = cycles.flatten.length % 36) ∧
    (cycles.flatten.length % 36 = 0 → drainFinal (runDriver cycles).1 = none) ∧
    (cycles.flatten.length % 36 ≠ 0 →
      drainFinal (runDriver cycles).1 = some (runDriver cycles).1) := by
  obtain ⟨h1, h2, h3⟩ := runDriver_inv cycles
  have hlen : 36 * (runDriver cycles).2.length + (runDriver cycles).1.length
      = cycles.flatten.length := by
    have hc := congrArg List.length h1
    simp only [List.length_append] at hc
    rw [← hc, flatten_length_const 36 _ h3]
  have hdiv : (runDriver cycles).2.length = cycles.flatten.length / 36 := by omega
  have hmod : (runDriver cycles).1.length = cycles.flatten.length % 36 := by omega
  refine ⟨hdiv, h3, h1, hmod, ?_, ?_⟩
  · intro h0
    have hz : (runDriver cycles).1.length = 0 := by omega
    have hnil : (runDriver cycles).1 = [] := List.length_eq_zero.mp hz
    simp [drainFinal, hnil]
  · intro h0
    have hne : (runDriver cycles).1 ≠ [] := by
      intro h
      apply h0
      rw [← hmod, h]
      rfl
    simp [drainFinal, List.isEmpty_iff, hne]

/-- Witness for C1 at a concrete run: two cycles of 20 images each
(N = 40 = 36 + 4): one full chunk of 36, remainder 4, drained as one final
submission. -/
theorem C1_chunking_exactness_witness :
    drainFinal (runDriver [List.replicate 20 (0 : ℕ), List.replicate 20 0]).1 =
      some (runDriver [List.replicate 20 (0 : ℕ), List.replicate 20 0]).1 :=
  (C1_chunking_exactness [List.replicate 20 (0 : ℕ), List.replicate 20 0]).2.2.2.2.2
    (by decide)

/-- C2: for every input list of file outputs of length L (including L = 0),
`api_upload_files` issues exactly ceil(L/12) upload calls, each carrying at
most 12 items, consecutive slices in order, such that concatenating the
sub-batches in submission order reproduces the original list; for L = 0 it
returns without issuing any call. -/
theorem C2_subbatch_splitting (filepaths : List α) :
    (api_upload_files filepaths).length = (filepaths.length + 11) / 12 ∧
    (∀ b ∈ api_upload_files filepaths, b.length ≤ 12) ∧
    (api_upload_files filepaths).flatten = filepaths ∧
    (filepaths = [] → api_upload_files filepaths = []) := by
  refine ⟨?_, ?_, ?_, ?_⟩
  · have := chunkEvery_length 12 (by omega) filepaths
    simpa [api_upload_files] using this
  · intro b hb
    exact chunkEvery_mem_length 12 (by omega) filepaths b hb
  · exact chunkEvery_flatten 12 filepaths
  · intro h
    subst h
    rfl

/-- C3: for every non-empty list of M image paths given to the collage step,
exactly ceil(M/3) collages are produced, collages preserve input order
(consecutive groups of 3), and the last collage contains M mod 3 images
(3 images when M is a multiple of 3). -/
theorem C3_collage_count (img_paths : List String) (hne : img_paths ≠ []) :
    (create_collages_from_paths img_paths).length = (img_paths.length + 2) / 3 ∧
    (create_collages_from_paths img_paths).flatten = img_paths ∧
    ∃ last, (create_collages_from_paths img_paths).getLast? = some last ∧
      last.length = if img_paths.length % 3 = 0 then 3 else img_paths.length % 3 := by
  refine ⟨?_, ?_, ?_⟩
  · have := chunkEvery_length 3 (by omega) img_paths
    simpa [create_collages_from_paths] using this
  · exact chunkEvery_flatten 3 img_paths
  · exact chunkEvery_getLast? 3 (by omega) img_paths hne

/-- Witness for C3 at the concrete input `["a", "b", "c", "d"]`
(M = 4: two collages, the last one holding 4 mod 3 = 1 image). -/
theorem C3_collage_count_witness :
    (create_collages_from_paths ["a", "b", "c", "d"]).length = (4 + 2) / 3 ∧
    (create_collages_from_paths ["a", "b", "c", "d"]).flatten = ["a", "b", "c", "d"] ∧
    ∃ last, (create_collages_from_paths ["a", "b", "c", "d"]).getLast? = some last ∧
      last.length = if (4 : ℕ) % 3 = 0 then 3 else 4 % 3 := by
  have h := C3_collage_count ["a", "b", "c", "d"] (by simp)
  simpa using h

/-! ### Client grouping (`CLIENT_RE`, `split_client`, `find_client_segment`,
`group_keys_by_client`) -/

/-- Python regex `\s`: whitespace characters. -/
def isPySpace (c : Char) : Bool :=
  c == ' ' || c == '\t' || c == '\n' || c == '\r' || c == '\x0b' || c == '\x0c'

/-- Denotation of the anchored regex fragment `\s*(.+?)\s*` on a whole
half-segment `t`: `t` decomposes as whitespace, then a nonempty group without
a newline (`.` does not match newline), then whitespace. -/
def segPart (t : List Char) : Bool :=
  (List.range (t.length + 1)).any (fun i =>
    (List.range (t.length + 1)).any (fun j =>
      decide (i < j) && (t.take i).all isPySpace && (t.drop j).all isPySpace &&
        ((t.drop i).take (j - i)).all (fun c => !(c == '\n'))))

/-- `CLIENT_RE` (src/noam.py, line 40: `^\s*(.+?)\s*-\s*(.+?)\s*$`): a string
matches iff some occurrence of `-` splits it into two halves, each of shape
`\s* nonempty-non-newline-group \s*`.  Returns the position of the first such
`-`; the captured groups are the stripped halves around it. -/
def clientMatchPos (s : List Char) : Option ℕ :=
  (List.range s.length).find? (fun d =>
    decide (s[d]? = some '-') && segPart (s.take d) && segPart (s.drop (d + 1)))

/-- `CLIENT_RE.match(seg)` viewed as a Boolean test. -/
def segMatches (t : List Char) : Bool :=
  (clientMatchPos t).isSome

/-- Python `str.strip`-style: drop characters satisfying `p` from both ends. -/
def stripBoth (p : Char → Bool) (t : List Char) : List Char :=
  ((t.dropWhile p).reverse.dropWhile p).reverse

/-- `split_client` (src/noam.py, lines 165-167): match the folder name against
`CLIENT_RE`; on success return the two captured groups, whitespace-stripped. -/
def split_client (folder : String) : Option (String × String) :=
  (clientMatchPos folder.data).map (fun d =>
    (⟨stripBoth isPySpace (folder.data.take d)⟩,
     ⟨stripBoth isPySpace (folder.data.drop (d + 1))⟩))

/-- Python `str.split(sep)` for a one-character separator: split on every
occurrence, keeping empty pieces. -/
def splitOnChar (sep : Char) : List Char → List (List Char)
  | [] => [[]]
  | c :: rest =>
    match splitOnChar sep rest with
    | [] => [[]]
    | g :: gs => if c == sep then [] :: g :: gs else (c :: g) :: gs

/-- `find_client_segment` (src/noam.py, lines 169-174): strip `/` from both
ends, split the relative path on `/`, and return the first segment matching
`CLIENT_RE` (an empty segment never matches). -/
def find_client_segment (path_rel : String) : Option String :=
  ((splitOnChar '/' (stripBoth (fun c => c == '/') path_rel.data)).find? segMatches).map
    (fun t => ⟨t⟩)

/-- The per-key decision of `group_keys_by_client`'s loop (src/noam.py, lines
178-183): skip keys not under the batch prefix or ending in `/`; otherwise
find the client segment of the relative path. -/
def assignKey (batchPrefix k : String) : Option String :=
  if batchPrefix.data.isPrefixOf k.data && !(k.data.getLast? == some '/') then
    find_client_segment ⟨k.data.drop batchPrefix.data.length⟩
  else none

/-- `groups.setdefault(client_seg, []).append(k)` on an insertion-ordered
association list (the Python dict preserves insertion order). -/
def upsert (groups : List (String × List String)) (seg k : String) :
    List (String × List String) :=
  match groups with
  | [] => [(seg, [k])]
  | (s, v) :: rest =>
    if s = seg then (s, v ++ [k]) :: rest else (s, v) :: upsert rest seg k

/-- Models `v.sort()` (src/noam.py, lines 185-186): sort each member-key list
lexicographically.  Insertion sort yields the same (unique) sorted list as
any comparison sort over the linear order on strings. -/
def sortKeys (v : List String) : List String :=
  List.insertionSort (· ≤ ·) v

/-- The dict-building fold of `group_keys_by_client`. -/
def buildGroups (batchPrefix : String) (gs : List (String × List String))
    (keys : List String) : List (String × List String) :=
  keys.foldl (fun gs k =>
    match assignKey batchPrefix k with
    | some seg => upsert gs seg k
    | none => gs) gs

/-- `group_keys_by_client` (src/noam.py, lines 176-187). -/
def group_keys_by_client (keys : List String) (batchPrefix : String) :
    List (String × List String) :=
  (buildGroups batchPrefix [] keys).map (fun e => (e.1, sortKeys e.2))

/-- Association-list lookup (the mapping denoted by a Python dict). -/
def lookupGroup {γ : Type _} : List (String × γ) → String → Option γ
  | [], _ => none
  | e :: rest, fk => if e.1 = fk then some e.2 else lookupGroup rest fk

/-- The member keys a key list contributes to folder key `fk`. -/
def hits (batchPrefix fk : String) (keys : List String) : List String :=
  keys.filter (fun k => decide (assignKey batchPrefix k = some fk))

theorem lookupGroup_upsert (gs : List (String × List String)) (seg k fk : String) :
    lookupGroup (upsert gs seg k) fk =
      if fk = seg then some (((lookupGroup gs seg).getD []) ++ [k])
      else lookupGroup gs fk := by
  induction gs with
  | nil =>
    by_cases h : fk = seg
    · subst h
      simp [upsert, lookupGroup]
    · have h' : ¬ seg = fk := fun hh => h hh.symm
      simp [upsert, lookupGroup, h, h']
  | cons e rest ih =>
    obtain ⟨s, v⟩ := e
    by_cases hs : s = seg
    · subst hs
      by_cases h : s = fk
      · subst h
        simp [upsert, lookupGroup]
      · have h' : ¬ fk = s := fun hh => h hh.symm
        simp [upsert, lookupGroup, h, h']
    · by_cases h : s = fk
      · subst h
        have h' : ¬ s = seg := hs
        simp [upsert, lookupGroup, h']
      · have h' : ¬ fk = s := fun hh => h hh.symm
        simp [upsert, lookupGroup, hs, h, h', ih]

theorem lookupGroup_buildGroups (p : String) :
    ∀ (keys : List String) (gs : List (String × List String)) (fk : String),
      lookupGroup (buildGroups p gs keys) fk =
        if hits p fk keys = [] then lookupGroup gs fk
        else some (((lookupGroup gs fk).getD []) ++ hits p fk keys) := by
  intro keys
  induction keys with
  | nil =>
    intro gs fk
    simp [buildGroups, hits]
  | cons k keys ih =>
    intro gs fk
    have hstep : buildGroups p gs (k :: keys) =
        buildGroups p (match assignKey p k with
          | some seg => upsert gs seg k
          | none => gs) keys := rfl
    rw [hstep]
    cases hak : assignKey p k with
    | none =>
      have hhits : hits p fk (k :: keys) = hits p fk keys := by
        simp [hits, List.filter_cons, hak]
      rw [ih, hhits]
    | some seg =>
      by_cases hfk : fk = seg
      · subst hfk
        have hhits : hits p fk (k :: keys) = k :: hits p fk keys := by
          simp [hits, List.filter_cons, hak]
        rw [ih, hhits]
        have hlk : lookupGroup (upsert gs fk k) fk =
            some (((lookupGroup gs fk).getD []) ++ [k]) := by
          rw [lookupGroup_upsert]; simp
        by_cases hh : hits p fk keys = []
        · simp [hh, hlk]
        · simp [hh, hlk]
      · have hne : ¬ assignKey p k = some fk := by
          rw [hak]
          intro hcon
          apply hfk
          injection hcon with h2
          exact h2.symm
        have hhits : hits p fk (k :: keys) = hits p fk keys := by
          simp [hits, List.filter_cons, decide_eq_false hne]
        rw [ih, hhits]
        have hlk : lookupGroup (upsert gs seg k) fk = lookupGroup gs fk := by
          rw [lookupGroup_upsert, if_neg hfk]
        rw [hlk]

theorem lookupGroup_map_sort (gs : List (String × List String)) (fk : String) :
    lookupGroup (gs.map (fun e => (e.1, sortKeys e.2))) fk =
      (lookupGroup gs fk).map sortKeys := by
  induction gs with
  | nil => rfl
  | cons e rest ih =>
    by_cases h : e.1 = fk <;> simp [lookupGroup, h, ih]

/-- The mapping computed by the grouper, in closed form. -/
theorem lookupGroup_group_keys_by_client (keys : List String) (p fk : String) :
    lookupGroup (group_keys_by_client keys p) fk =
      if hits p fk keys = [] then none else some (sortKeys (hits p fk keys)) := by
  rw [group_keys_by_client, lookupGroup_map_sort, lookupGroup_buildGroups]
  by_cases h : hits p fk keys = [] <;> simp [h, lookupGroup]

theorem sortKeys_sorted (v : List String) : (sortKeys v).Sorted (· ≤ ·) :=
  List.sorted_insertionSort _ v

theorem sortKeys_perm (v : List String) : (sortKeys v).Perm v :=
  List.perm_insertionSort _ v

theorem sortKeys_eq_of_perm (v w : List String) (hvw : v.Perm w) :
    sortKeys v = sortKeys w :=
  List.eq_of_perm_of_sorted
    (((sortKeys_perm v).trans hvw).trans (sortKeys_perm w).symm)
    (sortKeys_sorted v) (sortKeys_sorted w)

/-- C4: for every list of storage keys K and every permutation K' of K,
grouping K and K' under the same batch prefix yields the same mapping from
folder_key to member keys, with each group's member list in lexicographic
order of the full key; a key already present always maps to the same
folder_key on every re-call (membership of a group is determined by
`assignKey`, a function of the key alone). -/
theorem C4_grouping_idempotent (K K' : List String) (p : String) (hperm : K.Perm K') :
    (∀ fk, lookupGroup (group_keys_by_client K p) fk
        = lookupGroup (group_keys_by_client K' p) fk) ∧
    (∀ fk v, lookupGroup (group_keys_by_client K p) fk = some v →
      v.Sorted (· ≤ ·) ∧ ∀ k, k ∈ v ↔ k ∈ K ∧ assignKey p k = some fk) := by
  have hhits : ∀ fk, (hits p fk K).Perm (hits p fk K') := fun fk => hperm.filter _
  constructor
  · intro fk
    rw [lookupGroup_group_keys_by_client, lookupGroup_group_keys_by_client]
    by_cases h : hits p fk K = []
    · have h' : hits p fk K' = [] := (h ▸ hhits fk).symm.eq_nil
      rw [if_pos h, if_pos h']
    · have h' : hits p fk K' ≠ [] := by
        intro hc
        exact h ((hc ▸ hhits fk).eq_nil)
      rw [if_neg h, if_neg h', sortKeys_eq_of_perm _ _ (hhits fk)]
  · intro fk v hv
    rw [lookupGroup_group_keys_by_client] at hv
    by_cases h : hits p fk K = []
    · rw [if_pos h] at hv
      exact absurd hv (by simp)
    · rw [if_neg h] at hv
      have hv' : v = sortKeys (hits p fk K) := by
        injection hv with h2
        exact h2.symm
      subst hv'
      refine ⟨sortKeys_sorted _, ?_⟩
      intro k
      rw [(sortKeys_perm _).mem_iff]
      simp only [hits, List.mem_filter, decide_eq_true_eq]

/-- Witness for C4 at a concrete permutation pair: two keys of one client
listed in either order produce the same member list. -/
theorem C4_grouping_idempotent_witness :
    lookupGroup (group_keys_by_client ["u/B - C/2.jpg", "u/B - C/1.jpg"] "u/") "B - C"
      = lookupGroup (group_keys_by_client ["u/B - C/1.jpg", "u/B - C/2.jpg"] "u/") "B - C" :=
  (C4_grouping_idempotent ["u/B - C/2.jpg", "u/B - C/1.jpg"]
    ["u/B - C/1.jpg", "u/B - C/2.jpg"] "u/" (List.Perm.swap _ _ _)).1 "B - C"

theorem find_client_segment_segMatches (rel seg : String)
    (h : find_client_segment rel = some seg) : segMatches seg.data = true := by
  unfold find_client_segment at h
  rw [Option.map_eq_some'] at h
  obtain ⟨t, ht, hseg⟩ := h
  have hp := List.find?_some ht
  subst hseg
  exact hp

theorem assignKey_segMatches (p k seg : String) (h : assignKey p k = some seg) :
    segMatches seg.data = true := by
  unfold assignKey at h
  by_cases hc : (p.data.isPrefixOf k.data && !(k.data.getLast? == some '/')) = true
  · rw [if_pos hc] at h
    exact find_client_segment_segMatches _ _ h
  · rw [if_neg hc] at h
    exact absurd h (by simp)

theorem upsert_entries (gs : List (String × List String)) (seg k : String)
    (hgs : ∀ e ∈ gs, segMatches e.1.data = true ∧ e.2 ≠ [])
    (hseg : segMatches seg.data = true) :
    ∀ e ∈ upsert gs seg k, segMatches e.1.data = true ∧ e.2 ≠ [] := by
  induction gs with
  | nil =>
    intro e he
    simp only [upsert, List.mem_singleton] at he
    subst he
    exact ⟨hseg, by simp⟩
  | cons f rest ih =>
    obtain ⟨s, v⟩ := f
    intro e he
    by_cases hs : s = seg
    · subst hs
      simp only [upsert, if_pos rfl, if_true, eq_self_iff_true, List.mem_cons] at he
      rcases he with he | he
      · subst he
        exact ⟨(hgs (s, v) (by simp)).1, by simp⟩
      · exact hgs e (List.mem_cons_of_mem _ he)
    · simp only [upsert, if_neg hs, List.mem_cons] at he
      rcases he with he | he
      · subst he
        exact hgs (s, v) (by simp)
      · exact ih (fun x hx => hgs x (List.mem_cons_of_mem _ hx)) e he

theorem buildGroups_entries (p : String) :
    ∀ (keys : List String) (gs : List (String × List String)),
      (∀ e ∈ gs, segMatches e.1.data = true ∧ e.2 ≠ []) →
      ∀ e ∈ buildGroups p gs keys, segMatches e.1.data = true ∧ e.2 ≠ [] := by
  intro keys
  induction keys with
  | nil =>
    intro gs h e he
    exact h e he
  | cons k keys ih =>
    intro gs h e he
    have hstep : buildGroups p gs (k :: keys) =
        buildGroups p (match assignKey p k with
          | some seg => upsert gs seg k
          | none => gs) keys := rfl
    rw [hstep] at he
    cases hak : assignKey p k with
    | none =>
      rw [hak] at he
      exact ih gs h e he
    | some seg =>
      rw [hak] at he
      exact ih (upsert gs seg k)
        (upsert_entries gs seg k h (assignKey_segMatches p k seg hak)) e he

/-- C10: every folder_key in the mapping returned by the grouper matches the
"Name - Address" client pattern and has a non-empty member-key list;
consequently `split_client` on any returned folder_key succeeds, making the
processing loop's fallback branch for an unparseable folder_key unreachable. -/
theorem C10_folder_keys_parseable (keys : List String) (p : String) :
    ∀ e ∈ group_keys_by_client keys p,
      segMatches e.1.data = true ∧ (split_client e.1).isSome = true ∧ e.2 ≠ [] := by
  intro e he
  rw [group_keys_by_client, List.mem_map] at he
  obtain ⟨f, hf, hef⟩ := he
  have hraw := buildGroups_entries p keys [] (by simp) f hf
  subst hef
  refine ⟨hraw.1, ?_, ?_⟩
  · have h1 := hraw.1
    rw [segMatches] at h1
    simpa [split_client] using h1
  · intro hnil
    have hp := sortKeys_perm f.2
    rw [show (f.1, sortKeys f.2).2 = sortKeys f.2 from rfl] at hnil
    rw [hnil] at hp
    exact hraw.2 hp.symm.eq_nil

/-- Witness for C10 at a concrete key list with one client folder. -/
theorem C10_folder_keys_parseable_witness :
    segMatches ("A - B" : String).data = true ∧
    (split_client "A - B").isSome = true ∧ (["u/A - B/x.jpg"] : List String) ≠ [] :=
  C10_folder_keys_parseable ["u/A - B/x.jpg"] "u/" ("A - B", ["u/A - B/x.jpg"])
    (by decide)

/-! ### Per-client polling state (`processor_thread`, src/noam.py lines 248-397) -/

/-- The per-client mutable record created by `rt_ensure_client`
(src/noam.py, lines 224-242), restricted to the fields that drive the
pipeline's control flow: `seen_keys`, `normalized_count`, `buffer_paths`.
The name/address/coordinate fields are static per client and are modelled
with `get_coordinates`/`rt_ensure_coords` below; the remaining counters and
status strings are progress reporting only. -/
structure ClientState (β : Type _) where
  seen_keys : List String
  normalized_count : ℕ
  buffer_paths : List β
deriving DecidableEq

/-- A freshly created client record has no seen keys, no normalized images
and an empty buffer (src/noam.py, lines 231-242). -/
def freshClient {β : Type _} : ClientState β :=
  ⟨[], 0, []⟩

/-- One iteration of the normalization loop (src/noam.py, lines 304-317):
`norm` abstracts `download_fileobj` + `preprocess_to_jpeg_bytes` + the
temp-file write, with `none` for the caught per-key exception.  On success
the output is appended to the buffer, the counter is bumped, and the key is
added to `seen_keys`; on failure the state is unchanged. -/
def normStep (norm : String → Option β) (st : ClientState β) (key : String) :
    ClientState β :=
  match norm key with
  | some b => ⟨st.seen_keys ++ [key], st.normalized_count + 1, st.buffer_paths ++ [b]⟩
  | none => st

/-- One group's poll-cycle normalization pass (src/noam.py, lines 292-317):
filter the listed keys against the snapshot of `seen_keys`, then normalize
each new key in order. -/
def pollGroup (norm : String → Option β) (client_keys : List String)
    (c : ClientState β) : ClientState β :=
  (client_keys.filter (fun k => !(c.seen_keys.contains k))).foldl (normStep norm) c

theorem normStep_seen_mono (norm : String → Option β) (st : ClientState β)
    (key k : String) (h : k ∈ st.seen_keys) : k ∈ (normStep norm st key).seen_keys := by
  cases hn : norm key with
  | none => simpa [normStep, hn] using h
  | some b => simp [normStep, hn, h]

theorem foldl_normStep_seen_mono (norm : String → Option β) :
    ∀ (L : List String) (st : ClientState β) (k : String), k ∈ st.seen_keys →
      k ∈ (L.foldl (normStep norm) st).seen_keys := by
  intro L
  induction L with
  | nil =>
    intro st k h
    exact h
  | cons x L ih =>
    intro st k h
    exact ih _ _ (normStep_seen_mono norm st x k h)

theorem foldl_normStep_success_seen (norm : String → Option β) :
    ∀ (L : List String) (st : ClientState β) (k : String), k ∈ L →
      (norm k).isSome = true → k ∈ (L.foldl (normStep norm) st).seen_keys := by
  intro L
  induction L with
  | nil =>
    intro st k hk
    simp at hk
  | cons x L ih =>
    intro st k hk hs
    rcases List.mem_cons.mp hk with h | h
    · subst h
      simp only [List.foldl_cons]
      apply foldl_normStep_seen_mono
      cases hn : norm k with
      | none =>
        rw [hn] at hs
        simp at hs
      | some b => simp [normStep, hn]
    · exact ih _ _ h hs

theorem foldl_normStep_none_id (norm : String → Option β) :
    ∀ (L : List String) (st : ClientState β), (∀ k ∈ L, norm k = none) →
      L.foldl (normStep norm) st = st := by
  intro L
  induction L with
  | nil =>
    intro st _
    rfl
  | cons x L ih =>
    intro st h
    have hx : norm x = none := h x (by simp)
    simp only [List.foldl_cons]
    rw [show normStep norm st x = st from by simp [normStep, hx]]
    exact ih st (fun k hk => h k (List.mem_cons_of_mem _ hk))

/-- C5: once a key has been successfully normalized for a group it is in the
group's `seen_keys` (keys are filtered against `seen_keys` before processing
and added immediately after successful normalization), and re-running the
poll cycle against the same key list is the identity on the group state — in
particular `normalized_count` does not increase. -/
theorem C5_no_reprocessing (norm : String → Option β) (client_keys : List String)
    (c : ClientState β) :
    (∀ k ∈ client_keys, (norm k).isSome = true →
      k ∈ (pollGroup norm client_keys c).seen_keys) ∧
    pollGroup norm client_keys (pollGroup norm client_keys c)
      = pollGroup norm client_keys c ∧
    (pollGroup norm client_keys (pollGroup norm client_keys c)).normalized_count
      = (pollGroup norm client_keys c).normalized_count := by
  have hmem : ∀ k ∈ client_keys, (norm k).isSome = true →
      k ∈ (pollGroup norm client_keys c).seen_keys := by
    intro k hk hs
    by_cases hseen : k ∈ c.seen_keys
    · exact foldl_normStep_seen_mono norm _ c k hseen
    · apply foldl_normStep_success_seen norm _ c k _ hs
      rw [List.mem_filter]
      refine ⟨hk, ?_⟩
      simp [hseen]
  have hidem : pollGroup norm client_keys (pollGroup norm client_keys c)
      = pollGroup norm client_keys c := by
    set c1 := pollGroup norm client_keys c with hc1
    have hnone : ∀ k ∈ client_keys.filter (fun k => !(c1.seen_keys.contains k)),
        norm k = none := by
      intro k hk
      rw [List.mem_filter] at hk
      obtain ⟨hk1, hk2⟩ := hk
      have hnotseen : k ∉ c1.seen_keys := by
        intro hcon
        simp [hcon] at hk2
      cases hn : norm k with
      | none => rfl
      | some b =>
        exact absurd (hmem k hk1 (by simp [hn])) hnotseen
    exact foldl_normStep_none_id norm _ c1 hnone
  exact ⟨hmem, hidem, by rw [hidem]⟩

/-- A concrete normalizer for witnesses: key `"k1"` normalizes to `1`,
everything else fails to decode. -/
def normEx : String → Option ℕ :=
  fun k => if k = "k1" then some 1 else none

/-- Witness for C5: after one poll over `["k1", "bad"]`, the successfully
normalized key `"k1"` is in `seen_keys`, and a second identical poll is the
identity. -/
theorem C5_no_reprocessing_witness :
    "k1" ∈ (pollGroup normEx ["k1", "bad"] (freshClient : ClientState ℕ)).seen_keys ∧
    pollGroup normEx ["k1", "bad"]
        (pollGroup normEx ["k1", "bad"] (freshClient : ClientState ℕ))
      = pollGroup normEx ["k1", "bad"] (freshClient : ClientState ℕ) :=
  ⟨(C5_no_reprocessing normEx ["k1", "bad"] freshClient).1 "k1" (by decide) (by decide),
   (C5_no_reprocessing normEx ["k1", "bad"] freshClient).2.1⟩

/-! ### One polling cycle of `processor_thread` and the `updated` flag (C6) -/

/-- The registration loop of one polling cycle (src/noam.py, lines 272-283):
for every group folder that `split_client` parses, ensure a client record
exists (`rt_ensure_client` creates a fresh one on first sighting and returns
early if the folder is already present). -/
def ensurePhase (sts : List (String × ClientState β))
    (groups : List (String × List String)) : List (String × ClientState β) :=
  groups.foldl (fun s g =>
    if (split_client g.1).isSome then
      match lookupGroup s g.1 with
      | some _ => s
      | none => s ++ [(g.1, freshClient)]
    else s) sts

/-- In-place update of one client's record in the client map. -/
def setClient (sts : List (String × ClientState β)) (cf : String)
    (c : ClientState β) : List (String × ClientState β) :=
  sts.map (fun e => if e.1 = cf then (cf, c) else e)

/-- The buffer after the blocks-of-36 while loop (src/noam.py, lines
320-347): full blocks are removed from the front (collaged and sent);
`seen_keys` and `normalized_count` are untouched. -/
def flushBuffer (c : ClientState β) : ClientState β :=
  ⟨c.seen_keys, c.normalized_count, (chunk36 c.buffer_paths).2⟩

/-- One iteration of the processing loop of a polling cycle (src/noam.py,
lines 286-347): skip unparseable folders; compute the keys not yet seen; if
there are any, set the `updated` flag, normalize them and flush the buffer. -/
def processStep (norm : String → Option β)
    (acc : List (String × ClientState β) × Bool) (g : String × List String) :
    List (String × ClientState β) × Bool :=
  if (split_client g.1).isSome then
    match lookupGroup acc.1 g.1 with
    | none => acc
    | some c =>
      if (g.2.filter (fun k => !(c.seen_keys.contains k))).isEmpty then acc
      else (setClient acc.1 g.1 (flushBuffer (pollGroup norm g.2 c)), true)
  else acc

/-- The processing loop over all groups of one cycle; the Boolean is the
`updated` flag, and `last_activity` is reset iff it ends up `true`
(src/noam.py, lines 349-351). -/
def processPhase (norm : String → Option β) (groups : List (String × List String))
    (sts : List (String × ClientState β)) : List (String × ClientState β) × Bool :=
  groups.foldl (processStep norm) (sts, false)

/-- One full polling cycle (src/noam.py, lines 267-351): registration loop
then processing loop over the grouped keys. -/
def pollCycle (norm : String → Option β) (sts : List (String × ClientState β))
    (groups : List (String × List String)) :
    List (String × ClientState β) × Bool :=
  processPhase norm groups (ensurePhase sts groups)

/-- The seen-key set a folder key currently has (empty if no record yet). -/
def seenOf (sts : List (String × ClientState β)) (cf : String) : List String :=
  match lookupGroup sts cf with
  | some c => c.seen_keys
  | none => []

theorem lookupGroup_append_single {γ : Type _} (sts : List (String × γ))
    (x : String) (v : γ) (cf : String) :
    lookupGroup (sts ++ [(x, v)]) cf =
      match lookupGroup sts cf with
      | some c => some c
      | none => if x = cf then some v else none := by
  induction sts with
  | nil => simp [lookupGroup]
  | cons e rest ih =>
    by_cases h : e.1 = cf
    · simp [lookupGroup, h]
    · simp only [List.cons_append, lookupGroup, if_neg h]
      exact ih

theorem lookupGroup_ensurePhase (sts : List (String × ClientState β))
    (gs : List (String × List String)) (cf : String) :
    lookupGroup (ensurePhase sts gs) cf =
      match lookupGroup sts cf with
      | some c => some c
      | none =>
        if gs.any (fun g => decide (g.1 = cf) && (split_client g.1).isSome) then
          some freshClient
        else none := by
  induction gs generalizing sts with
  | nil =>
    cases h : lookupGroup sts cf <;> simp [ensurePhase, h]
  | cons g gs ih =>
    have hstep : ensurePhase sts (g :: gs) =
        ensurePhase (if (split_client g.1).isSome then
          match lookupGroup sts g.1 with
          | some _ => sts
          | none => sts ++ [(g.1, freshClient)]
        else sts) gs := rfl
    rw [hstep]
    by_cases hsp : (split_client g.1).isSome = true
    · rw [if_pos hsp]
      cases hg : lookupGroup sts g.1 with
      | some c0 =>
        simp only [hg]
        rw [ih sts]
        cases hcf : lookupGroup sts cf with
        | some c => rfl
        | none =>
          have hne : ¬ (g.1 = cf) := by
            intro h
            rw [h, hcf] at hg
            exact Option.noConfusion hg
          rw [List.any_cons, decide_eq_false hne, Bool.false_and, Bool.false_or]
      | none =>
        simp only [hg]
        rw [ih (sts ++ [(g.1, freshClient)]), lookupGroup_append_single]
        cases hcf : lookupGroup sts cf with
        | some c => rfl
        | none =>
          by_cases hgc : g.1 = cf
          · rw [if_pos hgc, List.any_cons, decide_eq_true hgc, hsp, Bool.true_and,
              Bool.true_or, if_pos rfl]
          · rw [if_neg hgc, List.any_cons, decide_eq_false hgc, Bool.false_and,
              Bool.false_or]
    · rw [if_neg hsp]
      rw [ih sts]
      cases hcf : lookupGroup sts cf with
      | some c => rfl
      | none =>
        have hspf : (split_client g.1).isSome = false := Bool.eq_false_iff.mpr hsp
        rw [List.any_cons, hspf, Bool.and_false, Bool.false_or]

theorem seenOf_ensurePhase (sts : List (String × ClientState β))
    (gs : List (String × List String)) (cf : String) :
    seenOf (ensurePhase sts gs) cf = seenOf sts cf := by
  rw [seenOf, seenOf, lookupGroup_ensurePhase]
  cases h : lookupGroup sts cf with
  | some c => rfl
  | none =>
    by_cases hany : gs.any (fun g => decide (g.1 = cf) && (split_client g.1).isSome) = true
    · simp [hany, freshClient]
    · simp [Bool.eq_false_iff.mpr hany]

theorem ensurePhase_isSome (sts : List (String × ClientState β))
    (gs : List (String × List String)) (g : String × List String)
    (hg : g ∈ gs) (hsp : (split_client g.1).isSome = true) :
    (lookupGroup (ensurePhase sts gs) g.1).isSome = true := by
  rw [lookupGroup_ensurePhase]
  cases h : lookupGroup sts g.1 with
  | some c => rfl
  | none =>
    have hany : gs.any (fun x => decide (x.1 = g.1) && (split_client x.1).isSome) = true := by
      rw [List.any_eq_true]
      exact ⟨g, hg, by simp [hsp]⟩
    simp [hany]

theorem lookupGroup_setClient_ne (sts : List (String × ClientState β))
    (cf cf' : String) (c : ClientState β) (h : cf' ≠ cf) :
    lookupGroup (setClient sts cf c) cf' = lookupGroup sts cf' := by
  induction sts with
  | nil => rfl
  | cons e rest ih =>
    simp only [setClient, List.map_cons]
    by_cases he : e.1 = cf
    · rw [if_pos he]
      have h1 : ¬ (cf = cf') := fun hh => h hh.symm
      have h2 : ¬ (e.1 = cf') := by
        rw [he]
        exact h1
      simp only [lookupGroup, if_neg h1, if_neg h2]
      exact ih
    · rw [if_neg he]
      by_cases h2 : e.1 = cf'
      · simp only [lookupGroup, if_pos h2]
      · simp only [lookupGroup, if_neg h2]
        exact ih

theorem processStep_true (norm : String → Option β)
    (acc : List (String × ClientState β) × Bool) (g : String × List String)
    (h : acc.2 = true) : (processStep norm acc g).2 = true := by
  rw [processStep]
  by_cases hsp : (split_client g.1).isSome = true
  · rw [if_pos hsp]
    cases hlk : lookupGroup acc.1 g.1 with
    | none => exact h
    | some c =>
      dsimp only
      by_cases he : (g.2.filter (fun k => !(c.seen_keys.contains k))).isEmpty = true
      · rw [if_pos he]
        exact h
      · rw [if_neg he]
  · rw [if_neg hsp]
    exact h

theorem foldl_processStep_true (norm : String → Option β)
    (gs : List (String × List String)) :
    ∀ (acc : List (String × ClientState β) × Bool), acc.2 = true →
      (gs.foldl (processStep norm) acc).2 = true := by
  induction gs with
  | nil =>
    intro acc h
    exact h
  | cons g gs ih =>
    intro acc h
    exact ih _ (processStep_true norm acc g h)

theorem processPhase_updated (norm : String → Option β)
    (sts1 : List (String × ClientState β)) :
    ∀ (rest : List (String × List String)) (s : List (String × ClientState β)) (upd : Bool),
      (∀ g ∈ rest, lookupGroup s g.1 = lookupGroup sts1 g.1) →
      (∀ g ∈ rest, (split_client g.1).isSome = true →
        (lookupGroup sts1 g.1).isSome = true) →
      (rest.foldl (processStep norm) (s, upd)).2 =
        (upd || rest.any (fun g => (split_client g.1).isSome &&
          !(g.2.filter (fun k => !((seenOf sts1 g.1).contains k))).isEmpty)) := by
  intro rest
  induction rest with
  | nil =>
    intro s upd _ _
    simp
  | cons g rest ih =>
    intro s upd hlk hens
    have hlkt : ∀ x ∈ rest, lookupGroup s x.1 = lookupGroup sts1 x.1 :=
      fun x hx => hlk x (List.mem_cons_of_mem _ hx)
    have henst : ∀ x ∈ rest, (split_client x.1).isSome = true →
        (lookupGroup sts1 x.1).isSome = true :=
      fun x hx => hens x (List.mem_cons_of_mem _ hx)
    rw [List.foldl_cons, List.any_cons]
    by_cases hsp : (split_client g.1).isSome = true
    · have hsome : (lookupGroup sts1 g.1).isSome = true := hens g (by simp) hsp
      obtain ⟨c, hc⟩ := Option.isSome_iff_exists.mp hsome
      have hlkg : lookupGroup s g.1 = some c := by
        rw [hlk g (by simp), hc]
      have hseen : seenOf sts1 g.1 = c.seen_keys := by
        rw [seenOf, hc]
      have hstep : processStep norm (s, upd) g =
          (if (g.2.filter (fun k => !(c.seen_keys.contains k))).isEmpty then (s, upd)
           else (setClient s g.1 (flushBuffer (pollGroup norm g.2 c)), true)) := by
        rw [processStep, if_pos hsp]
        simp only [hlkg]
      by_cases he : (g.2.filter (fun k => !(c.seen_keys.contains k))).isEmpty = true
      · rw [hstep, if_pos he]
        rw [ih s upd hlkt henst]
        rw [hsp, hseen, he]
        simp
      · have hef : (g.2.filter (fun k => !(c.seen_keys.contains k))).isEmpty = false :=
          Bool.eq_false_iff.mpr he
        rw [hstep, if_neg he]
        rw [foldl_processStep_true norm rest _ rfl]
        rw [hsp, hseen, hef]
        simp
    · have hspf : (split_client g.1).isSome = false := Bool.eq_false_iff.mpr hsp
      have hstep : processStep norm (s, upd) g = (s, upd) := by
        rw [processStep, if_neg hsp]
      rw [hstep, ih s upd hlkt henst, hspf, Bool.false_and, Bool.false_or]

/-- C6 (amended): a polling cycle resets `last_activity_timestamp` (i.e. the
`updated` flag ends up `true`) if and only if at least one group with a
parseable folder key lists at least one key not yet in that group's
`seen_keys` — whether or not its normalization succeeds.  A cycle in which
every listed key was already seen leaves the timestamp unchanged. -/
theorem C6_activity_reset_iff (norm : String → Option β)
    (sts0 : List (String × ClientState β)) (groups : List (String × List String)) :
    (pollCycle norm sts0 groups).2 = true ↔
      ∃ g ∈ groups, (split_client g.1).isSome = true ∧
        g.2.filter (fun k => !((seenOf sts0 g.1).contains k)) ≠ [] := by
  rw [pollCycle, processPhase]
  rw [processPhase_updated norm (ensurePhase sts0 groups) groups (ensurePhase sts0 groups)
      false (fun g _ => rfl) (fun g hg hsp => ensurePhase_isSome sts0 groups g hg hsp)]
  rw [Bool.false_or, List.any_eq_true]
  constructor
  · rintro ⟨g, hg, hcond⟩
    rw [Bool.and_eq_true] at hcond
    refine ⟨g, hg, hcond.1, ?_⟩
    have h2 := hcond.2
    rw [seenOf_ensurePhase] at h2
    intro hnil
    rw [hnil] at h2
    simp at h2
  · rintro ⟨g, hg, hsp, hne⟩
    refine ⟨g, hg, ?_⟩
    rw [Bool.and_eq_true]
    refine ⟨hsp, ?_⟩
    rw [seenOf_ensurePhase]
    simpa using hne

/-- Counterexample to C6 as stated: with a normalizer that fails on every
key (every per-key exception is caught and logged), a cycle that lists one
previously-unseen key sets `updated = true` — so `last_activity` is reset —
although no key is successfully normalized and buffered
(`normalized_count` stays 0 for every group). -/
theorem C6_counterexample :
    ¬ (((pollCycle (fun _ => (none : Option ℕ)) [] [("A - B", ["k1"])]).2 = true) →
        0 < ((pollCycle (fun _ => (none : Option ℕ)) [] [("A - B", ["k1"])]).1.map
          (fun e => e.2.normalized_count)).sum) := by
  decide

/-! ### Image normalizer dimensions (`preprocess_to_jpeg_bytes`, C7) -/

/-- The scale factor of `preprocess_to_jpeg_bytes` (src/noam.py, line 119):
`s = min(1.0, max_dim / max(w, h))`, modelled exactly over ℚ. -/
def preprocessScale (max_dim w h : ℕ) : ℚ :=
  min 1 ((max_dim : ℚ) / ((max w h : ℕ) : ℚ))

/-- The output dimensions of `preprocess_to_jpeg_bytes` (src/noam.py, lines
114-124): resize to `(int(w*s), int(h*s))` only when `s < 1` (`int()`
truncation of a nonnegative value is the floor); otherwise keep `(w, h)`. -/
def preprocess_to_jpeg_bytes_dims (max_dim w h : ℕ) : ℕ × ℕ :=
  if preprocessScale max_dim w h < 1 then
    (⌊(w : ℚ) * preprocessScale max_dim w h⌋.toNat,
     ⌊(h : ℚ) * preprocessScale max_dim w h⌋.toNat)
  else (w, h)

/-- C7: for every decodable input image of dimensions (w, h), the normalizer
computes `s = min(1, max_dim / max(w, h))` and resizes only when `s < 1`
(equivalently `max_dim < max w h`); the output dimensions never exceed the
input's, and when resizing occurs the larger output dimension is at most
`max_dim`. -/
theorem C7_normalizer_no_upscale (max_dim w h : ℕ) (hw : 0 < w) (hh : 0 < h) :
    (preprocess_to_jpeg_bytes_dims max_dim w h).1 ≤ w ∧
    (preprocess_to_jpeg_bytes_dims max_dim w h).2 ≤ h ∧
    (max_dim < max w h →
      max (preprocess_to_jpeg_bytes_dims max_dim w h).1
        (preprocess_to_jpeg_bytes_dims max_dim w h).2 ≤ max_dim) ∧
    (max w h ≤ max_dim → preprocess_to_jpeg_bytes_dims max_dim w h = (w, h)) := by
  have hm : 0 < max w h := lt_of_lt_of_le hw (le_max_left w h)
  have hmq : (0 : ℚ) < ((max w h : ℕ) : ℚ) := by exact_mod_cast hm
  have hs1 : preprocessScale max_dim w h ≤ 1 := min_le_left _ _
  have hlt_iff : preprocessScale max_dim w h < 1 ↔ max_dim < max w h := by
    rw [preprocessScale, min_lt_iff]
    constructor
    · rintro (h1 | h1)
      · exact absurd h1 (lt_irrefl _)
      · rw [div_lt_one hmq] at h1
        exact_mod_cast h1
    · intro h1
      right
      rw [div_lt_one hmq]
      exact_mod_cast h1
  have hfloorle : ∀ (x : ℕ), ⌊(x : ℚ) * preprocessScale max_dim w h⌋.toNat ≤ x := by
    intro x
    rw [Int.toNat_le]
    have h1 : (x : ℚ) * preprocessScale max_dim w h ≤ (x : ℚ) :=
      mul_le_of_le_one_right (Nat.cast_nonneg x) hs1
    calc ⌊(x : ℚ) * preprocessScale max_dim w h⌋
        ≤ ⌊(x : ℚ)⌋ := Int.floor_mono h1
      _ = (x : ℤ) := Int.floor_natCast x
  have hseq : max_dim < max w h →
      preprocessScale max_dim w h = (max_dim : ℚ) / ((max w h : ℕ) : ℚ) := by
    intro h1
    rw [preprocessScale, min_eq_right]
    rw [div_le_one hmq]
    exact_mod_cast le_of_lt h1
  have hboundm : ∀ (x : ℕ), x ≤ max w h → max_dim < max w h →
      ⌊(x : ℚ) * preprocessScale max_dim w h⌋.toNat ≤ max_dim := by
    intro x hx h1
    rw [Int.toNat_le]
    have hle : (x : ℚ) * preprocessScale max_dim w h ≤ (max_dim : ℚ) := by
      rw [hseq h1]
      calc (x : ℚ) * ((max_dim : ℚ) / ((max w h : ℕ) : ℚ))
          ≤ ((max w h : ℕ) : ℚ) * ((max_dim : ℚ) / ((max w h : ℕ) : ℚ)) :=
            mul_le_mul_of_nonneg_right (by exact_mod_cast hx)
              (div_nonneg (Nat.cast_nonneg _) hmq.le)
        _ = (max_dim : ℚ) := mul_div_cancel₀ _ (ne_of_gt hmq)
    calc ⌊(x : ℚ) * preprocessScale max_dim w h⌋
        ≤ ⌊(max_dim : ℚ)⌋ := Int.floor_mono hle
      _ = (max_dim : ℤ) := Int.floor_natCast max_dim
  by_cases hcase : preprocessScale max_dim w h < 1
  · rw [preprocess_to_jpeg_bytes_dims, if_pos hcase]
    have h1 := hlt_iff.mp hcase
    refine ⟨hfloorle w, hfloorle h, ?_, ?_⟩
    · intro _
      rw [max_le_iff]
      exact ⟨hboundm w (le_max_left w h) h1, hboundm h (le_max_right w h) h1⟩
    · intro h2
      exact absurd h1 (not_lt.mpr h2)
  · rw [preprocess_to_jpeg_bytes_dims, if_neg hcase]
    refine ⟨le_refl w, le_refl h, ?_, fun _ => rfl⟩
    intro h1
    exact absurd (hlt_iff.mpr h1) hcase

/-- Witness for C7 at a 3200x1600 input with `max_dim = 1600`. -/
theorem C7_normalizer_no_upscale_witness :
    (preprocess_to_jpeg_bytes_dims 1600 3200 1600).1 ≤ 3200 ∧
    (preprocess_to_jpeg_bytes_dims 1600 3200 1600).2 ≤ 1600 ∧
    (1600 < max 3200 1600 →
      max (preprocess_to_jpeg_bytes_dims 1600 3200 1600).1
        (preprocess_to_jpeg_bytes_dims 1600 3200 1600).2 ≤ 1600) ∧
    (max 3200 1600 ≤ 1600 →
      preprocess_to_jpeg_bytes_dims 1600 3200 1600 = (3200, 1600)) :=
  C7_normalizer_no_upscale 1600 3200 1600 (by decide) (by decide)

/-! ### Collage canvas dimensions (`create_collage`, C8) -/

/-- `min(i.size[1] for i in pil_images)` (src/noam.py, line 127): Python's
`min` over the heights, as a fold. -/
def collageMinHeight (sizes : List (ℕ × ℕ)) : ℕ :=
  match sizes.map Prod.snd with
  | [] => 0
  | x :: xs => xs.foldl min x

/-- The width an input gets after the height-equalizing scale (src/noam.py,
line 128): `int(i.size[0] * min_h / i.size[1])` — exact integer floor for
nonnegative values. -/
def collageScaledWidth (min_h : ℕ) (wh : ℕ × ℕ) : ℕ :=
  wh.1 * min_h / wh.2

/-- The canvas dimensions of `create_collage` (src/noam.py, lines 126-136):
width = sum of scaled widths + (N-1)*20 + 50, height = min_h + 50
(outer margin 25px on all sides, gap 20px). -/
def create_collage_dims (sizes : List (ℕ × ℕ)) : ℕ × ℕ :=
  ((sizes.map (collageScaledWidth (collageMinHeight sizes))).sum
      + (sizes.length - 1) * 20 + 50,
   collageMinHeight sizes + 50)

theorem foldl_min_spec : ∀ (xs : List ℕ) (x : ℕ),
    (xs.foldl min x = x ∨ xs.foldl min x ∈ xs) ∧
    xs.foldl min x ≤ x ∧ ∀ y ∈ xs, xs.foldl min x ≤ y := by
  intro xs
  induction xs with
  | nil =>
    intro x
    exact ⟨Or.inl rfl, le_refl x, by simp⟩
  | cons y xs ih =>
    intro x
    obtain ⟨hmem, hlex, hley⟩ := ih (min x y)
    simp only [List.foldl_cons]
    refine ⟨?_, ?_, ?_⟩
    · rcases hmem with hm | hm
      · rcases min_choice x y with hc | hc
        · left
          rw [hm, hc]
        · right
          rw [hm, hc]
          exact List.mem_cons_self y xs
      · right
        exact List.mem_cons_of_mem _ hm
    · exact le_trans hlex (min_le_left x y)
    · intro z hz
      rcases List.mem_cons.mp hz with hz | hz
      · subst hz
        exact le_trans hlex (min_le_right x z)
      · exact hley z hz

/-- C8: for every non-empty list of input sizes with positive heights, the
collage target height is the minimum input height, and the canvas is
(sum of scaled widths + 20*(N-1) + 2*25, target height + 2*25). -/
theorem C8_collage_canvas (sizes : List (ℕ × ℕ)) (hne : sizes ≠ []) :
    (collageMinHeight sizes ∈ sizes.map Prod.snd ∧
      ∀ hh ∈ sizes.map Prod.snd, collageMinHeight sizes ≤ hh) ∧
    (create_collage_dims sizes).1 =
      (sizes.map (collageScaledWidth (collageMinHeight sizes))).sum
        + 20 * (sizes.length - 1) + 2 * 25 ∧
    (create_collage_dims sizes).2 = collageMinHeight sizes + 2 * 25 := by
  refine ⟨?_, ?_, ?_⟩
  · cases hm : sizes.map Prod.snd with
    | nil =>
      exact absurd (List.map_eq_nil_iff.mp hm) hne
    | cons x xs =>
      have hmin : collageMinHeight sizes = xs.foldl min x := by
        rw [collageMinHeight, hm]
      obtain ⟨hmem, hlex, hley⟩ := foldl_min_spec xs x
      rw [hmin]
      constructor
      · rcases hmem with hm2 | hm2
        · rw [hm2]
          exact List.mem_cons_self x xs
        · exact List.mem_cons_of_mem _ hm2
      · intro hh hhh
        rcases List.mem_cons.mp hhh with h2 | h2
        · subst h2
          exact hlex
        · exact hley hh h2
  · rw [create_collage_dims]
    omega
  · rw [create_collage_dims]

/-- Witness for C8 at two concrete inputs (heights 50 and 60, target 50). -/
theorem C8_collage_canvas_witness :
    (collageMinHeight [(100, 50), (30, 60)] ∈ [(100, 50), (30, 60)].map Prod.snd ∧
      ∀ hh ∈ [(100, 50), (30, 60)].map Prod.snd,
        collageMinHeight [(100, 50), (30, 60)] ≤ hh) ∧
    (create_collage_dims [(100, 50), (30, 60)]).1 =
      ([(100, 50), (30, 60)].map
        (collageScaledWidth (collageMinHeight [(100, 50), (30, 60)]))).sum
        + 20 * ([(100, 50), (30, 60)].length - 1) + 2 * 25 ∧
    (create_collage_dims [(100, 50), (30, 60)]).2 =
      collageMinHeight [(100, 50), (30, 60)] + 2 * 25 :=
  C8_collage_canvas [(100, 50), (30, 60)] (by simp)

/-! ### Geocoding fallback (`get_coordinates`, `rt_ensure_client`, C9) -/

/-- The geocoding transport outcome: the HTTP call either raises (any
exception, caught by `get_coordinates`) or returns a decoded body with a
`status` string and a list of results each carrying a `(lat, lng)` pair. -/
inductive GeoTransport : Type
  | fails : GeoTransport
  | returns (status : String) (results : List (ℚ × ℚ)) : GeoTransport

/-- The `try` block of `get_coordinates` (src/noam.py, lines 102-110) as a
fallible computation: raises on transport failure; returns the first
result's location when the status is "OK" and results are present; falls
through to `(None, None)` otherwise. -/
def geo_attempt (t : GeoTransport) : Except Unit (Option ℚ × Option ℚ) :=
  match t with
  | .fails => .error ()
  | .returns status results =>
    if status = "OK" then
      match results with
      | [] => .ok (none, none)
      | loc :: _ => .ok (some loc.1, some loc.2)
    else .ok (none, none)

/-- `get_coordinates` (src/noam.py, lines 100-111): a missing API key
short-circuits to `(None, None)`; any exception in the attempt is swallowed
(`except Exception: pass`) and also yields `(None, None)`.  The function is
total: no error ever propagates to the caller. -/
def get_coordinates (api_key : Option String) (t : GeoTransport) :
    Option ℚ × Option ℚ :=
  match api_key with
  | none => (none, none)
  | some _ =>
    match geo_attempt t with
    | .ok v => v
    | .error _ => (none, none)

/-- The coordinate initialization of `rt_ensure_client` (src/noam.py, lines
228-230): `if lat is None or lng is None: lat, lng = ("N/A", "N/A")`; the
client record then stores either the sentinel strings or the numbers. -/
def rt_ensure_coords (geo : Option ℚ × Option ℚ) : (String ⊕ ℚ) × (String ⊕ ℚ) :=
  match geo with
  | (some la, some ln) => (Sum.inr la, Sum.inr ln)
  | _ => (Sum.inl "N/A", Sum.inl "N/A")

/-- C9: geocoding resolution never raises to its caller (`get_coordinates`
is total); any transport error, non-OK status, missing result, or missing
API key yields the sentinel pair ("N/A", "N/A") in the client record, and a
successful lookup yields the first result's coordinates, so group
processing continues either way. -/
theorem C9_geocoding_never_fatal (api_key : Option String) (t : GeoTransport) :
    (t = GeoTransport.fails →
      rt_ensure_coords (get_coordinates api_key t) = (Sum.inl "N/A", Sum.inl "N/A")) ∧
    (∀ status results, t = GeoTransport.returns status results →
      status ≠ "OK" ∨ results = [] →
      rt_ensure_coords (get_coordinates api_key t) = (Sum.inl "N/A", Sum.inl "N/A")) ∧
    (api_key = none →
      rt_ensure_coords (get_coordinates api_key t) = (Sum.inl "N/A", Sum.inl "N/A")) ∧
    (∀ key status loc rest, api_key = some key →
      t = GeoTransport.returns status (loc :: rest) → status = "OK" →
      rt_ensure_coords (get_coordinates api_key t) = (Sum.inr loc.1, Sum.inr loc.2)) := by
  refine ⟨?_, ?_, ?_, ?_⟩
  · intro ht
    subst ht
    cases api_key <;> rfl
  · intro status results ht hbad
    subst ht
    cases api_key with
    | none => rfl
    | some key =>
      rcases hbad with hbad | hbad
      · cases results <;> simp [get_coordinates, geo_attempt, hbad, rt_ensure_coords]
      · subst hbad
        by_cases hok : status = "OK" <;>
          simp [get_coordinates, geo_attempt, hok, rt_ensure_coords]
  · intro hk
    subst hk
    rfl
  · intro key status loc rest hk ht hok
    subst hk
    subst ht
    subst hok
    simp [get_coordinates, geo_attempt, rt_ensure_coords]

/-- Witness for C9: a transport failure with a configured API key yields the
sentinel pair. -/
theorem C9_geocoding_never_fatal_witness :
    rt_ensure_coords (get_coordinates (some "KEY") GeoTransport.fails)
      = (Sum.inl "N/A", Sum.inl "N/A") :=
  (C9_geocoding_never_fatal (some "KEY") GeoTransport.fails).1 rfl

end Noam
